import Mathlib

/-!
Shallow embedding of `src/challenges/01_steganography/steganography.py`
(class `ImageSteganography`), at the pixel-sequence level.

Modelling conventions:
* A Python pixel tuple becomes `Pixel := List Int` (Python ints are
  unbounded; image channels happen to lie in [0,255] but the code never
  checks this).  `t[:3]` becomes `List.take 3`.
* A Python `str` becomes `Text := List Nat`, the sequence of code points
  (`ord`/`chr` become the identity on the stored code point; `chr` is total
  for the values the decoder produces, see the C10 theorem).
* `range(8)` is written as the literal list `[0,1,2,3,4,5,6,7]`.
* Exceptions become `Except StegError`.  The source raises a single
  `SteganographyError` class with distinct messages; `StegError` names the
  distinct raise sites (empty text, capacity, decode exhaustion, decode
  `ValueError` handler) so that theorems can tell them apart.
* List indexing `l[i]` is modelled as `List.getD l i d`; the default is
  never reached under the well-formedness hypotheses of the theorems
  (every pixel has at least 3 channels), matching the source, which would
  raise `IndexError` outside them.
* `encode` is modelled from pixel sequence to pixel sequence: the source
  reads `list(image.getdata())`, writes each yielded pixel back at
  successive row-major positions (so exactly the first `3*len(text)`
  positions are overwritten), and the image copy keeps the remaining
  pixels; file I/O is peripheral glue outside the codec core.
-/

namespace Steg

/-- Error kinds for the distinct raise sites of `SteganographyError`. -/
inductive StegError where
  | emptyPayload
  | capacity
  | truncatedCarrier
  | invalidData
deriving DecidableEq

/-- A pixel: an ordered tuple of integer channel values. -/
abbrev Pixel := List Int

/-- A text as its sequence of Unicode code points. -/
abbrev Text := List Nat

/-- Source `make_even`: make a number even by subtracting 1 if odd. -/
def make_even (value : Int) : Int :=
  if value % 2 ≠ 0 then value - 1 else value

/-- Source `make_odd`: make a number odd; even values below 255 gain 1,
an even value at 255 or above loses 1 (the source guard `value < 255`). -/
def make_odd (value : Int) : Int :=
  if value % 2 = 0 then (if value < 255 then value + 1 else value - 1)
  else value

/-- Source `encode_bit_in_value`: bit `"0"` makes the value even, any
other bit character (the source comment says `bit == '1'`) makes it odd. -/
def encode_bit_in_value (value : Int) (bit : Char) : Int :=
  if bit = '0' then make_even value else make_odd value

/-- Source `extract_bit_from_value`: the LSB of a color value, as a
bit character. -/
def extract_bit_from_value (value : Int) : Char :=
  if value % 2 ≠ 0 then '1' else '0'

/-- Python `format(n, "08b")`: binary digits of `n`, most significant
first, left-padded with `'0'` to at least 8 characters.
`Nat.toDigits 2 n` is exactly `bin(n)[2:]` as a char list. -/
def format08b (n : Nat) : List Char :=
  let ds := Nat.toDigits 2 n
  List.replicate (8 - ds.length) '0' ++ ds

/-- Source `text_to_binary`: one binary string per character of the text,
via `format(ord(char), "08b")`. -/
def text_to_binary (text : Text) : List (List Char) :=
  text.map format08b

/-- One loop iteration of `modify_pixels_for_encoding`: flatten the first
3 channels of 3 pixels into a 9-value buffer, encode the 8 bits of
`binary_char` into values 0-7, set the termination flag on value 8
(`make_odd` for the last character, `make_even` otherwise), and yield the
3 modified pixels `cv[0:3]`, `cv[3:6]`, `cv[6:9]`. -/
def encodeGroup (p1 p2 p3 : Pixel) (binary_char : List Char)
    (is_last : Bool) : List Pixel :=
  let cv0 := p1.take 3 ++ p2.take 3 ++ p3.take 3
  let cv1 := [0, 1, 2, 3, 4, 5, 6, 7].foldl
    (fun cv i =>
      cv.set i (encode_bit_in_value (cv.getD i 0) (binary_char.getD i ' ')))
    cv0
  let cv := cv1.set 8
    (if is_last then make_odd (cv1.getD 8 0) else make_even (cv1.getD 8 0))
  [cv.take 3, (cv.drop 3).take 3, (cv.drop 6).take 3]

/-- The generator loop of `modify_pixels_for_encoding`: consume 3 pixels
per binary character (raising the capacity `SteganographyError` when the
pixel iterator is exhausted, i.e. fewer than 3 pixels remain), with
`is_last` true exactly for the final character. -/
def encodeGroupsGo : List (List Char) → List Pixel →
    Except StegError (List Pixel)
  | [], _ => Except.ok []
  | bc :: rest, pixels =>
    match pixels with
    | p1 :: p2 :: p3 :: ps =>
      match encodeGroupsGo rest ps with
      | Except.ok tail => Except.ok (encodeGroup p1 p2 p3 bc rest.isEmpty ++ tail)
      | Except.error e => Except.error e
    | _ => Except.error StegError.capacity

/-- Source `modify_pixels_for_encoding`, as the list of yielded pixels. -/
def modify_pixels_for_encoding (pixels : List Pixel) (text : Text) :
    Except StegError (List Pixel) :=
  encodeGroupsGo (text_to_binary text) pixels

/-- Source `validate_image_capacity`: fail when the carrier has fewer
than `len(text) * 3` pixels. -/
def validate_image_capacity (total_pixels : Nat) (text : Text) :
    Except StegError Unit :=
  if total_pixels < text.length * 3 then Except.error StegError.capacity
  else Except.ok ()

/-- Source `encode` at the pixel-sequence level: reject empty text, then
validate capacity, then overwrite the first `3*len(text)` positions of a
copy with the yielded pixels, keeping the remaining pixels unchanged. -/
def encode (pixels : List Pixel) (text : Text) :
    Except StegError (List Pixel) :=
  if text = [] then Except.error StegError.emptyPayload
  else
    match validate_image_capacity pixels.length text with
    | Except.error e => Except.error e
    | Except.ok _ =>
      match modify_pixels_for_encoding pixels text with
      | Except.ok modified => Except.ok (modified ++ pixels.drop (text.length * 3))
      | Except.error e => Except.error e

/-- One character of Python `int(s, 2)`: a binary digit or failure. -/
def parseBinChar (c : Char) : Option Nat :=
  if c = '0' then some 0 else if c = '1' then some 1 else none

/-- Accumulator loop of Python `int(s, 2)` over the digit characters,
most significant first. -/
def int_base2_go : List Char → Nat → Option Nat
  | [], acc => some acc
  | c :: rest, acc =>
    match parseBinChar c with
    | some d => int_base2_go rest (acc * 2 + d)
    | none => none

/-- Python `int(s, 2)`: fails (`ValueError`) on the empty string or on a
non-binary-digit character. -/
def int_base2 (s : List Char) : Option Nat :=
  if s = [] then none else int_base2_go s 0

/-- The decode loop of `decode`: read 3 pixels per iteration, flatten the
first 3 channels of each, join the LSBs of values 0-7 into a binary
string, parse it (`ValueError` becomes `invalidData`), append the
character, and stop when value 8 is odd; exhaustion of the pixel source
(`StopIteration`, including with fewer than 3 pixels left) is the
truncated-carrier error. -/
def decodeLoop : List Pixel → Text → Except StegError Text
  | p1 :: p2 :: p3 :: rest, decoded_text =>
    let color_values := p1.take 3 ++ p2.take 3 ++ p3.take 3
    let binary_string :=
      [0, 1, 2, 3, 4, 5, 6, 7].map
        (fun i => extract_bit_from_value (color_values.getD i 0))
    match int_base2 binary_string with
    | none => Except.error StegError.invalidData
    | some char_code =>
      if color_values.getD 8 0 % 2 ≠ 0 then
        Except.ok (decoded_text ++ [char_code])
      else decodeLoop rest (decoded_text ++ [char_code])
  | _, _ => Except.error StegError.truncatedCarrier

/-- Source `decode` at the pixel-sequence level. -/
def decode (pixels : List Pixel) : Except StegError Text :=
  decodeLoop pixels []

/-! Basic facts about the bit-level helpers. -/

lemma make_even_emod (v : Int) : make_even v % 2 = 0 := by
  unfold make_even
  split <;> omega

lemma make_odd_emod (v : Int) : make_odd v % 2 = 1 := by
  unfold make_odd
  split
  · split <;> omega
  · omega

lemma make_even_of_even (v : Int) (h : v % 2 = 0) : make_even v = v := by
  unfold make_even
  simp [h]

lemma make_odd_of_odd (v : Int) (h : v % 2 = 1) : make_odd v = v := by
  unfold make_odd
  simp [h]

lemma extract_of_even (v : Int) (h : v % 2 = 0) :
    extract_bit_from_value v = '0' := by
  unfold extract_bit_from_value
  simp [h]

lemma extract_of_odd (v : Int) (h : v % 2 = 1) :
    extract_bit_from_value v = '1' := by
  unfold extract_bit_from_value
  simp [h]

lemma extract_encode_bit (v : Int) (ch : Char)
    (h : ch = '0' ∨ ch = '1') :
    extract_bit_from_value (encode_bit_in_value v ch) = ch := by
  rcases h with rfl | rfl
  · rw [encode_bit_in_value, if_pos rfl]
    exact extract_of_even _ (make_even_emod v)
  · rw [encode_bit_in_value, if_neg (by decide)]
    exact extract_of_odd _ (make_odd_emod v)

lemma extract_bit_cases (v : Int) :
    extract_bit_from_value v = '0' ∨ extract_bit_from_value v = '1' := by
  unfold extract_bit_from_value
  split
  · exact Or.inr rfl
  · exact Or.inl rfl

lemma make_even_dist (v : Int) : (make_even v - v).natAbs ≤ 1 := by
  unfold make_even
  split <;> omega

lemma make_odd_dist (v : Int) : (make_odd v - v).natAbs ≤ 1 := by
  unfold make_odd
  split
  · split <;> omega
  · omega

lemma encode_bit_dist (v : Int) (ch : Char) :
    (encode_bit_in_value v ch - v).natAbs ≤ 1 := by
  unfold encode_bit_in_value
  split
  · exact make_even_dist v
  · exact make_odd_dist v

/-! Facts about `format08b` on byte-sized code points, by exhaustive
evaluation. -/

set_option maxRecDepth 40000 in
lemma format08b_facts : ∀ c < 256, (format08b c).length = 8 ∧
    (∀ ch ∈ format08b c, ch = '0' ∨ ch = '1') ∧
    int_base2 (format08b c) = some c := by decide

/-! List destructuring helpers. -/

lemma exists_three {α : Type} (p : List α) (h : 3 ≤ p.length) :
    ∃ a b c r, p = a :: b :: c :: r := by
  match p, h with
  | a :: b :: c :: r, _ => exact ⟨a, b, c, r, rfl⟩
  | [], h => simp at h
  | [a], h => simp at h
  | [a, b], h => simp at h

lemma eq_eight (l : List Char) (h : l.length = 8) :
    ∃ c0 c1 c2 c3 c4 c5 c6 c7, l = [c0, c1, c2, c3, c4, c5, c6, c7] := by
  match l, h with
  | [c0, c1, c2, c3, c4, c5, c6, c7], _ =>
    exact ⟨c0, c1, c2, c3, c4, c5, c6, c7, rfl⟩
  | [], h => simp at h
  | [c0], h => simp at h
  | [c0, c1], h => simp at h
  | [c0, c1, c2], h => simp at h
  | [c0, c1, c2, c3], h => simp at h
  | [c0, c1, c2, c3, c4], h => simp at h
  | [c0, c1, c2, c3, c4, c5], h => simp at h
  | [c0, c1, c2, c3, c4, c5, c6], h => simp at h
  | c0 :: c1 :: c2 :: c3 :: c4 :: c5 :: c6 :: c7 :: c8 :: rest, h => simp at h

/-- Definitional reduction of one encoding group on pixels with at least
3 channels. -/
lemma encodeGroup_cons (a0 a1 a2 a3 a4 a5 a6 a7 a8 : Int)
    (r1 r2 r3 : List Int) (bc : List Char) (il : Bool) :
    encodeGroup (a0 :: a1 :: a2 :: r1) (a3 :: a4 :: a5 :: r2)
      (a6 :: a7 :: a8 :: r3) bc il =
    [[encode_bit_in_value a0 (bc.getD 0 ' '),
      encode_bit_in_value a1 (bc.getD 1 ' '),
      encode_bit_in_value a2 (bc.getD 2 ' ')],
     [encode_bit_in_value a3 (bc.getD 3 ' '),
      encode_bit_in_value a4 (bc.getD 4 ' '),
      encode_bit_in_value a5 (bc.getD 5 ' ')],
     [encode_bit_in_value a6 (bc.getD 6 ' '),
      encode_bit_in_value a7 (bc.getD 7 ' '),
      if il then make_odd a8 else make_even a8]] := rfl

/-- Definitional reduction of one decoding step on three pixels, each
with at least 3 channels. -/
lemma decodeLoop_cons (x0 x1 x2 x3 x4 x5 x6 x7 x8 : Int)
    (r1 r2 r3 : List Int) (rest : List Pixel) (acc : Text) :
    decodeLoop ((x0 :: x1 :: x2 :: r1) :: (x3 :: x4 :: x5 :: r2) ::
      (x6 :: x7 :: x8 :: r3) :: rest) acc =
    match int_base2 [extract_bit_from_value x0, extract_bit_from_value x1,
      extract_bit_from_value x2, extract_bit_from_value x3,
      extract_bit_from_value x4, extract_bit_from_value x5,
      extract_bit_from_value x6, extract_bit_from_value x7] with
    | none => Except.error StegError.invalidData
    | some n =>
      if x8 % 2 ≠ 0 then Except.ok (acc ++ [n])
      else decodeLoop rest (acc ++ [n]) := rfl

/-! Facts about the binary-string parser. -/

lemma int_base2_go_binary :
    ∀ (s : List Char) (acc : Nat), (∀ ch ∈ s, ch = '0' ∨ ch = '1') →
      ∃ n, int_base2_go s acc = some n ∧ n < (acc + 1) * 2 ^ s.length := by
  intro s
  induction s with
  | nil =>
    intro acc _
    exact ⟨acc, rfl, by simp⟩
  | cons c rest ih =>
    intro acc h
    have hrest : ∀ ch ∈ rest, ch = '0' ∨ ch = '1' :=
      fun ch hm => h ch (List.mem_cons_of_mem _ hm)
    have hstep : ∀ d : Nat, d ≤ 1 →
        ∀ n, n < (acc * 2 + d + 1) * 2 ^ rest.length →
        n < (acc + 1) * 2 ^ (c :: rest).length := by
      intro d hd n hn
      have h2 : acc * 2 + d + 1 ≤ (acc + 1) * 2 := by omega
      calc n < (acc * 2 + d + 1) * 2 ^ rest.length := hn
        _ ≤ ((acc + 1) * 2) * 2 ^ rest.length :=
          Nat.mul_le_mul_right _ h2
        _ = (acc + 1) * 2 ^ (c :: rest).length := by
          rw [List.length_cons, pow_succ]
          ring
    rcases h c (List.mem_cons_self _ _) with rfl | rfl
    · obtain ⟨n, hgo, hlt⟩ := ih (acc * 2 + 0) hrest
      exact ⟨n, hgo, hstep 0 (by omega) n hlt⟩
    · obtain ⟨n, hgo, hlt⟩ := ih (acc * 2 + 1) hrest
      exact ⟨n, hgo, hstep 1 (by omega) n hlt⟩

lemma int_base2_binary (s : List Char) (hne : s ≠ [])
    (h : ∀ ch ∈ s, ch = '0' ∨ ch = '1') :
    ∃ n, int_base2 s = some n ∧ n < 2 ^ s.length := by
  obtain ⟨n, hgo, hlt⟩ := int_base2_go_binary s 0 h
  refine ⟨n, ?_, by rw [Nat.zero_add, one_mul] at hlt; exact hlt⟩
  rw [int_base2, if_neg hne]
  exact hgo

/-- Decoding one group that was produced by `encodeGroup` from a binary
string recovers the encoded character and either stops (last group) or
continues on the remaining pixels. -/
lemma decodeLoop_encodeGroup (p1 p2 p3 : Pixel)
    (h1 : 3 ≤ p1.length) (h2 : 3 ≤ p2.length) (h3 : 3 ≤ p3.length)
    (bc : List Char) (hlen : bc.length = 8)
    (hbin : ∀ ch ∈ bc, ch = '0' ∨ ch = '1')
    (n : Nat) (hval : int_base2 bc = some n) (il : Bool)
    (tail : List Pixel) (acc : Text) :
    decodeLoop (encodeGroup p1 p2 p3 bc il ++ tail) acc =
      if il then Except.ok (acc ++ [n]) else decodeLoop tail (acc ++ [n]) := by
  obtain ⟨a0, a1, a2, r1, rfl⟩ := exists_three p1 h1
  obtain ⟨a3, a4, a5, r2, rfl⟩ := exists_three p2 h2
  obtain ⟨a6, a7, a8, r3, rfl⟩ := exists_three p3 h3
  obtain ⟨c0, c1, c2, c3, c4, c5, c6, c7, rfl⟩ := eq_eight bc hlen
  rw [encodeGroup_cons, List.cons_append, List.cons_append, List.cons_append,
    List.nil_append, decodeLoop_cons]
  simp only [List.getD_cons_zero, List.getD_cons_succ]
  rw [extract_encode_bit a0 c0 (hbin c0 (by simp)),
    extract_encode_bit a1 c1 (hbin c1 (by simp)),
    extract_encode_bit a2 c2 (hbin c2 (by simp)),
    extract_encode_bit a3 c3 (hbin c3 (by simp)),
    extract_encode_bit a4 c4 (hbin c4 (by simp)),
    extract_encode_bit a5 c5 (hbin c5 (by simp)),
    extract_encode_bit a6 c6 (hbin c6 (by simp)),
    extract_encode_bit a7 c7 (hbin c7 (by simp)), hval]
  cases il
  · simp [make_even_emod]
  · simp [make_odd_emod]

/-! Structure of the successful encode. -/

lemma encodeGroupsGo_ok :
    ∀ (bcs : List (List Char)) (pixels : List Pixel),
      3 * bcs.length ≤ pixels.length →
      ∃ out, encodeGroupsGo bcs pixels = Except.ok out ∧
        out.length = 3 * bcs.length := by
  intro bcs
  induction bcs with
  | nil =>
    intro pixels _
    exact ⟨[], rfl, by simp⟩
  | cons bc rest ih =>
    intro pixels h
    have h3 : 3 ≤ pixels.length := by
      simp only [List.length_cons] at h
      omega
    obtain ⟨q1, q2, q3, ps, rfl⟩ := exists_three pixels h3
    have hps : 3 * rest.length ≤ ps.length := by
      simp only [List.length_cons] at h
      omega
    obtain ⟨tail, htail, hlen⟩ := ih ps hps
    refine ⟨encodeGroup q1 q2 q3 bc rest.isEmpty ++ tail, ?_, ?_⟩
    · simp [encodeGroupsGo, htail]
    · have hg : (encodeGroup q1 q2 q3 bc rest.isEmpty).length = 3 := rfl
      simp only [List.length_append, List.length_cons, hg, hlen]
      omega

/-- Round-trip core: decoding the pixels yielded for a non-empty byte
text, followed by arbitrary suffix pixels, extends the accumulator with
exactly that text. -/
lemma encode_decode_go :
    ∀ (codes : Text) (pixels suffix : List Pixel) (acc : Text),
      codes ≠ [] → (∀ c ∈ codes, c < 256) →
      (∀ p ∈ pixels, 3 ≤ p.length) →
      3 * codes.length ≤ pixels.length →
      ∃ out, encodeGroupsGo (text_to_binary codes) pixels = Except.ok out ∧
        decodeLoop (out ++ suffix) acc = Except.ok (acc ++ codes) := by
  intro codes
  induction codes with
  | nil =>
    intro _ _ _ hne _ _ _
    exact absurd rfl hne
  | cons c rest ih =>
    intro pixels suffix acc _ hlt hch hcap
    have hc : c < 256 := hlt c (by simp)
    obtain ⟨hflen, hfbin, hfval⟩ := format08b_facts c hc
    have h3 : 3 ≤ pixels.length := by
      simp only [List.length_cons] at hcap
      omega
    obtain ⟨p1, p2, p3, ps, rfl⟩ := exists_three pixels h3
    have h1 : 3 ≤ p1.length := hch p1 (by simp)
    have h2 : 3 ≤ p2.length := hch p2 (by simp)
    have h3p : 3 ≤ p3.length := hch p3 (by simp)
    have hpstail : ∀ p ∈ ps, 3 ≤ p.length := fun p hp => hch p (by simp [hp])
    cases rest with
    | nil =>
      refine ⟨encodeGroup p1 p2 p3 (format08b c) true ++ [], ?_, ?_⟩
      · simp [text_to_binary, encodeGroupsGo]
      · rw [List.append_nil,
          decodeLoop_encodeGroup p1 p2 p3 h1 h2 h3p (format08b c) hflen
            hfbin c hfval true suffix acc]
        simp
    | cons c2 rest2 =>
      have hlt2 : ∀ x ∈ (c2 :: rest2 : Text), x < 256 :=
        fun x hx => hlt x (by simp [hx])
      have hcap2 : 3 * (c2 :: rest2 : Text).length ≤ ps.length := by
        simp only [List.length_cons] at hcap ⊢
        omega
      obtain ⟨out2, hout2, hdec2⟩ :=
        ih ps suffix (acc ++ [c]) (by simp) hlt2 hpstail hcap2
      refine ⟨encodeGroup p1 p2 p3 (format08b c) false ++ out2, ?_, ?_⟩
      · simp [text_to_binary, encodeGroupsGo, List.isEmpty] at hout2 ⊢
        simp [hout2]
      · rw [List.append_assoc,
          decodeLoop_encodeGroup p1 p2 p3 h1 h2 h3p (format08b c) hflen
            hfbin c hfval false (out2 ++ suffix) acc]
        simpa using hdec2

/-- Inversion of a successful `encodeGroupsGo` step. -/
lemma encodeGroupsGo_cons_ok (bc : List Char) (rest : List (List Char))
    (pixels out : List Pixel)
    (hok : encodeGroupsGo (bc :: rest) pixels = Except.ok out) :
    ∃ q1 q2 q3 ps tail, pixels = q1 :: q2 :: q3 :: ps ∧
      encodeGroupsGo rest ps = Except.ok tail ∧
      out = encodeGroup q1 q2 q3 bc rest.isEmpty ++ tail := by
  match pixels with
  | [] => simp [encodeGroupsGo] at hok
  | [q1] => simp [encodeGroupsGo] at hok
  | [q1, q2] => simp [encodeGroupsGo] at hok
  | q1 :: q2 :: q3 :: ps =>
    cases hgo : encodeGroupsGo rest ps with
    | ok tail =>
      simp only [encodeGroupsGo, hgo, Except.ok.injEq] at hok
      exact ⟨q1, q2, q3, ps, tail, rfl, hgo, hok.symm⟩
    | error e =>
      simp [encodeGroupsGo, hgo] at hok

/-- Termination flags in the yielded pixels: the 9th value of group `i`
is odd exactly for the last group. -/
lemma encodeGroupsGo_flags :
    ∀ (bcs : List (List Char)) (pixels out : List Pixel),
      (∀ p ∈ pixels, 3 ≤ p.length) →
      encodeGroupsGo bcs pixels = Except.ok out →
      ∀ i < bcs.length,
        ((out.getD (3 * i + 2) []).getD 2 0) % 2 =
          if i = bcs.length - 1 then 1 else 0 := by
  intro bcs
  induction bcs with
  | nil =>
    intro pixels out _ _ i hi
    simp at hi
  | cons bc rest ih =>
    intro pixels out hch hok i hi
    obtain ⟨q1, q2, q3, ps, tail, rfl, hgo, rfl⟩ :=
      encodeGroupsGo_cons_ok bc rest pixels out hok
    obtain ⟨a0, a1, a2, r1, rfl⟩ := exists_three q1 (hch _ (by simp))
    obtain ⟨a3, a4, a5, r2, rfl⟩ := exists_three q2 (hch _ (by simp))
    obtain ⟨a6, a7, a8, r3, rfl⟩ := exists_three q3 (hch _ (by simp))
    rw [encodeGroup_cons]
    match i, hi with
    | 0, _ =>
      cases rest with
      | nil => simpa using make_odd_emod a8
      | cons b2 r2x =>
        have : ((b2 :: r2x : List (List Char)).length + 1 - 1) = r2x.length + 1 := by
          simp
        simpa [this] using make_even_emod a8
    | k + 1, hi =>
      have hk : k < rest.length := by
        simp only [List.length_cons] at hi
        omega
      have hidx : 3 * (k + 1) + 2 = 3 * k + 2 + 1 + 1 + 1 := by ring
      rw [hidx, List.cons_append, List.cons_append, List.cons_append,
        List.nil_append, List.getD_cons_succ, List.getD_cons_succ,
        List.getD_cons_succ]
      have hch2 : ∀ p ∈ ps, 3 ≤ p.length := fun p hp => hch p (by simp [hp])
      have := ih ps tail hch2 hgo k hk
      rw [this]
      rw [if_congr (by simp only [List.length_cons]; omega :
        (k = rest.length - 1) ↔ (k + 1 = (bc :: rest : List (List Char)).length - 1)) rfl rfl]

/-- Frame property of the yielded pixels: each output pixel in a group
has exactly 3 channels, and each of those channels differs from the
corresponding original channel by at most 1. -/
lemma encodeGroupsGo_frame :
    ∀ (bcs : List (List Char)) (pixels out : List Pixel),
      (∀ p ∈ pixels, 3 ≤ p.length) →
      encodeGroupsGo bcs pixels = Except.ok out →
      ∀ i < 3 * bcs.length, (out.getD i []).length = 3 ∧
        ∀ j < 3,
          ((out.getD i []).getD j 0 - (pixels.getD i []).getD j 0).natAbs ≤ 1 := by
  intro bcs
  induction bcs with
  | nil =>
    intro pixels out _ _ i hi
    simp at hi
  | cons bc rest ih =>
    intro pixels out hch hok i hi
    obtain ⟨q1, q2, q3, ps, tail, rfl, hgo, rfl⟩ :=
      encodeGroupsGo_cons_ok bc rest pixels out hok
    obtain ⟨a0, a1, a2, r1, rfl⟩ := exists_three q1 (hch _ (by simp))
    obtain ⟨a3, a4, a5, r2, rfl⟩ := exists_three q2 (hch _ (by simp))
    obtain ⟨a6, a7, a8, r3, rfl⟩ := exists_three q3 (hch _ (by simp))
    rw [encodeGroup_cons]
    have hdist2 : ((if rest.isEmpty then make_odd a8 else make_even a8) - a8).natAbs ≤ 1 := by
      cases rest.isEmpty
      · exact make_even_dist a8
      · exact make_odd_dist a8
    match i, hi with
    | 0, _ =>
      refine ⟨rfl, ?_⟩
      intro j hj
      match j, hj with
      | 0, _ => exact encode_bit_dist a0 _
      | 1, _ => exact encode_bit_dist a1 _
      | 2, _ => exact encode_bit_dist a2 _
    | 1, _ =>
      refine ⟨rfl, ?_⟩
      intro j hj
      match j, hj with
      | 0, _ => exact encode_bit_dist a3 _
      | 1, _ => exact encode_bit_dist a4 _
      | 2, _ => exact encode_bit_dist a5 _
    | 2, _ =>
      refine ⟨rfl, ?_⟩
      intro j hj
      match j, hj with
      | 0, _ => exact encode_bit_dist a6 _
      | 1, _ => exact encode_bit_dist a7 _
      | 2, _ => exact hdist2
    | k + 3, hi =>
      have hk : k < 3 * rest.length := by
        simp only [List.length_cons] at hi
        omega
      have hidx : k + 3 = k + 1 + 1 + 1 := by ring
      rw [hidx, List.cons_append, List.cons_append, List.cons_append,
        List.nil_append, List.getD_cons_succ, List.getD_cons_succ,
        List.getD_cons_succ, List.getD_cons_succ, List.getD_cons_succ,
        List.getD_cons_succ]
      have hch2 : ∀ p ∈ ps, 3 ≤ p.length := fun p hp => hch p (by simp [hp])
      exact ih ps tail hch2 hgo k hk

/-! Totality of the decode loop: every run ends in a decoded text or in
the truncated-carrier error — the `ValueError` branch is unreachable. -/

lemma decodeLoop_result :
    ∀ (fuel : Nat) (pixels : List Pixel) (acc : Text),
      pixels.length ≤ fuel →
      (∃ t, decodeLoop pixels acc = Except.ok t) ∨
        decodeLoop pixels acc = Except.error StegError.truncatedCarrier := by
  intro fuel
  induction fuel with
  | zero =>
    intro pixels acc h
    have hnil : pixels = [] := List.eq_nil_of_length_eq_zero (by omega)
    subst hnil
    exact Or.inr rfl
  | succ m ih =>
    intro pixels acc h
    match pixels with
    | [] => exact Or.inr rfl
    | [p1] => exact Or.inr rfl
    | [p1, p2] => exact Or.inr rfl
    | p1 :: p2 :: p3 :: rest =>
      have hbin : ∀ ch ∈ List.map
          (fun i => extract_bit_from_value
            ((p1.take 3 ++ p2.take 3 ++ p3.take 3).getD i 0))
          [0, 1, 2, 3, 4, 5, 6, 7], ch = '0' ∨ ch = '1' := by
        intro ch hch
        simp only [List.mem_map] at hch
        obtain ⟨i, _, rfl⟩ := hch
        exact extract_bit_cases _
      obtain ⟨n, hn, _⟩ := int_base2_binary _ (by simp) hbin
      have hstep : decodeLoop (p1 :: p2 :: p3 :: rest) acc =
          if (p1.take 3 ++ p2.take 3 ++ p3.take 3).getD 8 0 % 2 ≠ 0 then
            Except.ok (acc ++ [n])
          else decodeLoop rest (acc ++ [n]) := by
        simp only [decodeLoop]
        rw [hn]
      rw [hstep]
      by_cases hodd : (p1.take 3 ++ p2.take 3 ++ p3.take 3).getD 8 0 % 2 ≠ 0
      · rw [if_pos hodd]
        exact Or.inl ⟨acc ++ [n], rfl⟩
      · rw [if_neg hodd]
        have hm : rest.length ≤ m := by
          simp only [List.length_cons] at h
          omega
        exact ih rest (acc ++ [n]) hm

/-- When every complete group in the carrier has an even 9th value, the
decode loop exhausts the pixel source and fails with the
truncated-carrier error. -/
lemma decodeLoop_all_even :
    ∀ (fuel : Nat) (pixels : List Pixel) (acc : Text),
      pixels.length ≤ fuel →
      (∀ p ∈ pixels, 3 ≤ p.length) →
      (∀ i, 3 * (i + 1) ≤ pixels.length →
        ((pixels.getD (3 * i + 2) []).getD 2 0) % 2 = 0) →
      decodeLoop pixels acc = Except.error StegError.truncatedCarrier := by
  intro fuel
  induction fuel with
  | zero =>
    intro pixels acc h _ _
    have hnil : pixels = [] := List.eq_nil_of_length_eq_zero (by omega)
    subst hnil
    exact rfl
  | succ m ih =>
    intro pixels acc h hch hflags
    match pixels with
    | [] => exact rfl
    | [p1] => exact rfl
    | [p1, p2] => exact rfl
    | p1 :: p2 :: p3 :: rest =>
      obtain ⟨a0, a1, a2, r1, rfl⟩ := exists_three p1 (hch _ (by simp))
      obtain ⟨a3, a4, a5, r2, rfl⟩ := exists_three p2 (hch _ (by simp))
      obtain ⟨a6, a7, a8, r3, rfl⟩ := exists_three p3 (hch _ (by simp))
      have ha8 : a8 % 2 = 0 := by
        have h0 := hflags 0 (by simp only [List.length_cons]; omega)
        exact h0
      rw [decodeLoop_cons]
      have hbin : ∀ ch ∈ [extract_bit_from_value a0, extract_bit_from_value a1,
          extract_bit_from_value a2, extract_bit_from_value a3,
          extract_bit_from_value a4, extract_bit_from_value a5,
          extract_bit_from_value a6, extract_bit_from_value a7],
          ch = '0' ∨ ch = '1' := by
        intro ch hchm
        simp only [List.mem_cons, List.not_mem_nil, or_false] at hchm
        rcases hchm with rfl | rfl | rfl | rfl | rfl | rfl | rfl | rfl <;>
          exact extract_bit_cases _
      obtain ⟨n, hn, _⟩ := int_base2_binary _ (by simp) hbin
      rw [hn]
      show (if a8 % 2 ≠ 0 then Except.ok (acc ++ [n])
        else decodeLoop rest (acc ++ [n])) = Except.error StegError.truncatedCarrier
      rw [if_neg (by omega)]
      have hm : rest.length ≤ m := by
        simp only [List.length_cons] at h
        omega
      have hch2 : ∀ p ∈ rest, 3 ≤ p.length := fun p hp => hch p (by simp [hp])
      have hflags2 : ∀ i, 3 * (i + 1) ≤ rest.length →
          ((rest.getD (3 * i + 2) []).getD 2 0) % 2 = 0 := by
        intro i hi
        have := hflags (i + 1) (by simp only [List.length_cons]; omega)
        have hidx : 3 * (i + 1) + 2 = 3 * i + 2 + 1 + 1 + 1 := by ring
        rw [hidx, List.getD_cons_succ, List.getD_cons_succ,
          List.getD_cons_succ] at this
        exact this
      exact ih rest (acc ++ [n]) hm hch2 hflags2

/-! The claims. -/

/-- C1: for every non-empty text whose code points lie in [0,255] and
every pixel sequence of pixels with at least 3 channels, each channel in
[0,255], with at least `3*len(text)` pixels, decoding the result of
encoding the text returns exactly the original text. -/
theorem C1_round_trip (pixels : List Pixel) (text : Text)
    (hne : text ≠ []) (hlat : ∀ c ∈ text, c < 256)
    (hch : ∀ p ∈ pixels, 3 ≤ p.length)
    (_hrange : ∀ p ∈ pixels, ∀ v ∈ p, 0 ≤ v ∧ v ≤ 255)
    (hcap : 3 * text.length ≤ pixels.length) :
    ∃ out, encode pixels text = Except.ok out ∧
      decode out = Except.ok text := by
  obtain ⟨m, hm, hdec⟩ := encode_decode_go text pixels
    (pixels.drop (text.length * 3)) [] hne hlat hch hcap
  have hcap' : ¬ pixels.length < text.length * 3 := by omega
  refine ⟨m ++ pixels.drop (text.length * 3), ?_, ?_⟩
  · simp [encode, validate_image_capacity, modify_pixels_for_encoding,
      hne, hcap', hm]
  · simpa [decode] using hdec

theorem C1_round_trip_witness :
    ∃ out, encode [[10, 20, 30], [40, 50, 60], [70, 80, 90]] [65] =
        Except.ok out ∧ decode out = Except.ok [65] :=
  C1_round_trip [[10, 20, 30], [40, 50, 60], [70, 80, 90]] [65]
    (by decide) (by decide) (by decide) (by decide) (by decide)

/-- C2: the claim says encode must fail with an unsupported-character
error on any code point above 255; the code has no such check. On the
text U+263A (code point 9786, binary `10011000111010`) it succeeds,
embedding only the 8 most significant bits (`10011000`), and decoding
the result yields code point 152 — silent corruption instead of the
required rejection. -/
theorem C2_overlong_char_encoded :
    encode [[10, 20, 30], [40, 50, 60], [70, 80, 90]] [9786] =
      Except.ok [[11, 20, 30], [41, 51, 60], [70, 80, 91]] ∧
    decode [[11, 20, 30], [41, 51, 60], [70, 80, 91]] = Except.ok [152] :=
  ⟨rfl, rfl⟩

/-- C3: for every non-empty text of code points in [0,255], encode
succeeds if and only if `len(pixels) ≥ 3*len(text)`, and whenever the
carrier is short the failure is the capacity error (raised by the
validation step, before any group is built — in this model failure
returns no output at all, so there is no partial write). -/
theorem C3_capacity_boundary (pixels : List Pixel) (text : Text)
    (hne : text ≠ []) (_hlat : ∀ c ∈ text, c < 256) :
    ((∃ out, encode pixels text = Except.ok out) ↔
      3 * text.length ≤ pixels.length) ∧
    (pixels.length < 3 * text.length →
      encode pixels text = Except.error StegError.capacity) := by
  have herr : pixels.length < 3 * text.length →
      encode pixels text = Except.error StegError.capacity := by
    intro hlt
    have hcap' : pixels.length < text.length * 3 := by omega
    simp [encode, validate_image_capacity, hne, hcap']
  refine ⟨⟨?_, ?_⟩, herr⟩
  · rintro ⟨out, hout⟩
    by_contra hlt
    rw [herr (by omega)] at hout
    exact absurd hout (by simp)
  · intro hcap
    have hlenmap : (text_to_binary text).length = text.length := by
      simp [text_to_binary]
    obtain ⟨m, hm, _⟩ := encodeGroupsGo_ok (text_to_binary text) pixels
      (by rw [hlenmap]; exact hcap)
    have hcap' : ¬ pixels.length < text.length * 3 := by omega
    exact ⟨m ++ pixels.drop (text.length * 3),
      by simp [encode, validate_image_capacity, modify_pixels_for_encoding,
        hne, hcap', hm]⟩

theorem C3_capacity_boundary_witness :
    ((∃ out, encode [[1, 2, 3], [4, 5, 6]] [65] = Except.ok out) ↔
      3 * ([65] : Text).length ≤ ([[1, 2, 3], [4, 5, 6]] : List Pixel).length) ∧
    (([[1, 2, 3], [4, 5, 6]] : List Pixel).length < 3 * ([65] : Text).length →
      encode [[1, 2, 3], [4, 5, 6]] [65] = Except.error StegError.capacity) :=
  C3_capacity_boundary [[1, 2, 3], [4, 5, 6]] [65] (by decide) (by decide)

/-- C4 counterexample: the claim says channels beyond the first 3 of the
modified pixels are preserved unchanged; in fact `modify_pixels_for_encoding`
yields bare 3-tuples, dropping them. Encoding "A" into pixels with a 4th
channel returns first pixels of length 3 although the originals had
length 4, so the 4th channel is not preserved. -/
theorem C4_channels_dropped :
    encode [[10, 20, 30, 40], [50, 60, 70, 80], [90, 100, 110, 120]] [65] =
      Except.ok [[10, 21, 30], [50, 60, 70], [90, 101, 111]] ∧
    (([[10, 21, 30], [50, 60, 70], [90, 101, 111]] : List Pixel).getD 0 []).length = 3 ∧
    (([[10, 20, 30, 40], [50, 60, 70, 80], [90, 100, 110, 120]] : List Pixel).getD 0 []).length = 4 :=
  ⟨rfl, rfl, rfl⟩

/-- C4 (amended): encode never mutates its input (inherent in the pure
model) and, on success, returns a sequence of identical length whose
pixels beyond the first `3*len(text)` are unchanged; each of the first
`3*len(text)` output pixels consists of exactly the first 3 channels of
the corresponding original pixel, each adjusted by at most 1 — channels
beyond the first 3 are dropped from those pixels, not preserved. -/
theorem C4_encode_frame (pixels : List Pixel) (text : Text)
    (hne : text ≠ []) (hch : ∀ p ∈ pixels, 3 ≤ p.length)
    (hcap : 3 * text.length ≤ pixels.length) :
    ∃ out, encode pixels text = Except.ok out ∧
      out.length = pixels.length ∧
      out.drop (3 * text.length) = pixels.drop (3 * text.length) ∧
      ∀ i < 3 * text.length, (out.getD i []).length = 3 ∧
        ∀ j < 3,
          ((out.getD i []).getD j 0 - (pixels.getD i []).getD j 0).natAbs ≤ 1 := by
  have hlenmap : (text_to_binary text).length = text.length := by
    simp [text_to_binary]
  obtain ⟨m, hm, hmlen⟩ := encodeGroupsGo_ok (text_to_binary text) pixels
    (by rw [hlenmap]; exact hcap)
  rw [hlenmap] at hmlen
  have hcap' : ¬ pixels.length < text.length * 3 := by omega
  refine ⟨m ++ pixels.drop (text.length * 3), ?_, ?_, ?_, ?_⟩
  · simp [encode, validate_image_capacity, modify_pixels_for_encoding,
      hne, hcap', hm]
  · rw [List.length_append, List.length_drop]
    omega
  · have h1 : (m ++ pixels.drop (text.length * 3)).drop (3 * text.length) =
        pixels.drop (text.length * 3) := by
      rw [← hmlen]
      exact List.drop_left m _
    rw [h1, Nat.mul_comm]
  · intro i hi
    have hiL : i < m.length := by omega
    rw [List.getD_append _ _ _ _ hiL]
    exact encodeGroupsGo_frame (text_to_binary text) pixels m hch hm i
      (by rw [hlenmap]; exact hi)

theorem C4_encode_frame_witness :
    ∃ out, encode [[10, 20, 30, 40], [50, 60, 70, 80], [90, 100, 110, 120]] [65] =
        Except.ok out ∧
      out.length = ([[10, 20, 30, 40], [50, 60, 70, 80], [90, 100, 110, 120]] : List Pixel).length ∧
      out.drop (3 * ([65] : Text).length) =
        ([[10, 20, 30, 40], [50, 60, 70, 80], [90, 100, 110, 120]] : List Pixel).drop (3 * ([65] : Text).length) ∧
      ∀ i < 3 * ([65] : Text).length, (out.getD i []).length = 3 ∧
        ∀ j < 3,
          ((out.getD i []).getD j 0 -
            (([[10, 20, 30, 40], [50, 60, 70, 80], [90, 100, 110, 120]] : List Pixel).getD i []).getD j 0).natAbs ≤ 1 :=
  C4_encode_frame [[10, 20, 30, 40], [50, 60, 70, 80], [90, 100, 110, 120]] [65]
    (by decide) (by decide) (by decide)

/-- C5: in the output of a successful encode of an n-character text, the
9th channel value of group i (the 3rd channel of pixel `3*i+2`) is odd
if and only if i is the last group. -/
theorem C5_termination_flag (pixels : List Pixel) (text : Text)
    (hne : text ≠ []) (hch : ∀ p ∈ pixels, 3 ≤ p.length)
    (hcap : 3 * text.length ≤ pixels.length) :
    ∃ out, encode pixels text = Except.ok out ∧
      ∀ i < text.length,
        (((out.getD (3 * i + 2) []).getD 2 0) % 2 = 1 ↔
          i = text.length - 1) := by
  have hlenmap : (text_to_binary text).length = text.length := by
    simp [text_to_binary]
  obtain ⟨m, hm, hmlen⟩ := encodeGroupsGo_ok (text_to_binary text) pixels
    (by rw [hlenmap]; exact hcap)
  rw [hlenmap] at hmlen
  have hcap' : ¬ pixels.length < text.length * 3 := by omega
  refine ⟨m ++ pixels.drop (text.length * 3), ?_, ?_⟩
  · simp [encode, validate_image_capacity, modify_pixels_for_encoding,
      hne, hcap', hm]
  · intro i hi
    have hiL : 3 * i + 2 < m.length := by omega
    rw [List.getD_append _ _ _ _ hiL]
    have hf := encodeGroupsGo_flags (text_to_binary text) pixels m hch hm i
      (by rw [hlenmap]; exact hi)
    rw [hlenmap] at hf
    rw [hf]
    by_cases hi2 : i = text.length - 1
    · simp [hi2]
    · simp [hi2]

theorem C5_termination_flag_witness :
    ∃ out, encode [[10, 20, 30], [40, 50, 60], [70, 80, 90], [11, 12, 13],
        [14, 15, 16], [17, 18, 19]] [65, 66] = Except.ok out ∧
      ∀ i < ([65, 66] : Text).length,
        (((out.getD (3 * i + 2) []).getD 2 0) % 2 = 1 ↔
          i = ([65, 66] : Text).length - 1) :=
  C5_termination_flag [[10, 20, 30], [40, 50, 60], [70, 80, 90], [11, 12, 13],
      [14, 15, 16], [17, 18, 19]] [65, 66]
    (by decide) (by decide) (by decide)

/-- C6: when the pixel sequence is exhausted before any group with an
odd 9th value is read (in particular for sequences of fewer than 3
pixels and for the empty sequence, where there is no complete group at
all), decode fails with the truncated-carrier error and returns no
partial message. -/
theorem C6_truncated_carrier (pixels : List Pixel)
    (hch : ∀ p ∈ pixels, 3 ≤ p.length)
    (hflags : ∀ i, 3 * (i + 1) ≤ pixels.length →
      ((pixels.getD (3 * i + 2) []).getD 2 0) % 2 = 0) :
    decode pixels = Except.error StegError.truncatedCarrier :=
  decodeLoop_all_even pixels.length pixels [] le_rfl hch hflags

theorem C6_truncated_carrier_witness :
    decode [[2, 2, 2], [2, 2, 2], [2, 2, 2]] =
      Except.error StegError.truncatedCarrier :=
  C6_truncated_carrier [[2, 2, 2], [2, 2, 2], [2, 2, 2]]
    (by decide)
    (by
      intro i hi
      have h0 : i = 0 := by
        simp only [List.length_cons, List.length_nil] at hi
        omega
      subst h0
      decide)

/-- C7: for every value in [0,255] and every bit character, `make_even`
and `make_odd` are idempotent, extracting the bit of an encoded value
returns the encoded bit, and both results stay in [0,255], each
differing from the input by at most 1. -/
theorem C7_bit_functions (v : Int) (b : Char)
    (h0 : 0 ≤ v) (h255 : v ≤ 255) (hb : b = '0' ∨ b = '1') :
    make_even (make_even v) = make_even v ∧
    make_odd (make_odd v) = make_odd v ∧
    extract_bit_from_value (encode_bit_in_value v b) = b ∧
    (0 ≤ make_even v ∧ make_even v ≤ 255) ∧
    (0 ≤ make_odd v ∧ make_odd v ≤ 255) ∧
    (make_even v - v).natAbs ≤ 1 ∧ (make_odd v - v).natAbs ≤ 1 := by
  refine ⟨make_even_of_even _ (make_even_emod v),
    make_odd_of_odd _ (make_odd_emod v), extract_encode_bit v b hb, ?_, ?_,
    make_even_dist v, make_odd_dist v⟩
  · unfold make_even
    split <;> omega
  · unfold make_odd
    split
    · split <;> omega
    · omega

theorem C7_bit_functions_witness :
    make_even (make_even 254) = make_even 254 ∧
    make_odd (make_odd 254) = make_odd 254 ∧
    extract_bit_from_value (encode_bit_in_value 254 '1') = '1' ∧
    (0 ≤ make_even 254 ∧ make_even 254 ≤ 255) ∧
    (0 ≤ make_odd 254 ∧ make_odd 254 ≤ 255) ∧
    (make_even 254 - 254).natAbs ≤ 1 ∧ (make_odd 254 - 254).natAbs ≤ 1 :=
  C7_bit_functions 254 '1' (by decide) (by decide) (by decide)

/-- C8: decode reconstructs the character from the LSBs of the first 8
channel values of a group, MSB first, and stops at a group whose 9th
value is odd: on any pixel sequence whose first group's 9 relevant LSBs
are 0,1,0,0,0,0,0,1,1 it returns "A" (code point 65), whatever pixels
follow. -/
theorem C8_decode_scenario (p1 p2 p3 : Pixel) (rest : List Pixel)
    (l1 : 3 ≤ p1.length) (l2 : 3 ≤ p2.length) (l3 : 3 ≤ p3.length)
    (b0 : (p1.getD 0 0) % 2 = 0) (b1 : (p1.getD 1 0) % 2 = 1)
    (b2 : (p1.getD 2 0) % 2 = 0) (b3 : (p2.getD 0 0) % 2 = 0)
    (b4 : (p2.getD 1 0) % 2 = 0) (b5 : (p2.getD 2 0) % 2 = 0)
    (b6 : (p3.getD 0 0) % 2 = 0) (b7 : (p3.getD 1 0) % 2 = 1)
    (b8 : (p3.getD 2 0) % 2 = 1) :
    decode (p1 :: p2 :: p3 :: rest) = Except.ok [65] := by
  obtain ⟨a0, a1, a2, r1, rfl⟩ := exists_three p1 l1
  obtain ⟨a3, a4, a5, r2, rfl⟩ := exists_three p2 l2
  obtain ⟨a6, a7, a8, r3, rfl⟩ := exists_three p3 l3
  have hb0 : a0 % 2 = 0 := b0
  have hb1 : a1 % 2 = 1 := b1
  have hb2 : a2 % 2 = 0 := b2
  have hb3 : a3 % 2 = 0 := b3
  have hb4 : a4 % 2 = 0 := b4
  have hb5 : a5 % 2 = 0 := b5
  have hb6 : a6 % 2 = 0 := b6
  have hb7 : a7 % 2 = 1 := b7
  have hb8 : a8 % 2 = 1 := b8
  show decodeLoop _ [] = Except.ok [65]
  rw [decodeLoop_cons, extract_of_even _ hb0, extract_of_odd _ hb1,
    extract_of_even _ hb2, extract_of_even _ hb3, extract_of_even _ hb4,
    extract_of_even _ hb5, extract_of_even _ hb6, extract_of_odd _ hb7]
  rw [show int_base2 ['0', '1', '0', '0', '0', '0', '0', '1'] = some 65 from rfl]
  show (if a8 % 2 ≠ 0 then Except.ok (([] : Text) ++ [65])
    else decodeLoop rest (([] : Text) ++ [65])) = Except.ok [65]
  rw [if_pos (by omega)]
  rfl

theorem C8_decode_scenario_witness :
    decode ([10, 21, 30] :: [50, 60, 70] :: [90, 101, 111] :: []) =
      Except.ok [65] :=
  C8_decode_scenario [10, 21, 30] [50, 60, 70] [90, 101, 111] []
    (by decide) (by decide) (by decide) (by decide) (by decide) (by decide)
    (by decide) (by decide) (by decide) (by decide) (by decide) (by decide)

/-- C9: encode with empty text fails with the empty-payload error for
every pixel sequence; the check precedes the capacity check (even a
0-pixel carrier reports the empty payload, not insufficient capacity)
and, in this pure model, no output is produced. -/
theorem C9_empty_text (pixels : List Pixel) :
    encode pixels [] = Except.error StegError.emptyPayload := rfl

/-- C10: the character-construction step in decode can never fail — the
binary string of any group is 8 characters, each a binary digit, so the
parse always yields a code point below 256 — and therefore decode claims
only the ok or truncated-carrier results; the invalid-data branch is
unreachable for every pixel sequence. -/
theorem C10_decode_never_invalid :
    (∀ vs : List Int, ∃ n, int_base2 (List.map
        (fun i => extract_bit_from_value (vs.getD i 0))
        [0, 1, 2, 3, 4, 5, 6, 7]) = some n ∧ n < 256) ∧
    ∀ pixels : List Pixel, (∃ t, decode pixels = Except.ok t) ∨
      decode pixels = Except.error StegError.truncatedCarrier := by
  constructor
  · intro vs
    have hbin : ∀ ch ∈ List.map
        (fun i => extract_bit_from_value (vs.getD i 0))
        [0, 1, 2, 3, 4, 5, 6, 7], ch = '0' ∨ ch = '1' := by
      intro ch hch
      simp only [List.mem_map] at hch
      obtain ⟨i, _, rfl⟩ := hch
      exact extract_bit_cases _
    obtain ⟨n, hn, hlt⟩ := int_base2_binary _ (by simp) hbin
    refine ⟨n, hn, ?_⟩
    simpa using hlt
  · intro pixels
    exact decodeLoop_result pixels.length pixels [] le_rfl

end Steg
